import Mathlib

/-!
# Plutus backend: read-acceleration layer

A shallow embedding of the in-process caches, the sliding-window rate limiter,
the row projection and the search aggregation of `plutus-backend/server.go`,
together with the properties proved about them.

Modelling conventions.

* An instant (`time.Time`) is an integer count of nanoseconds on the process
  clock and a `time.Duration` is an integer count of nanoseconds, so
  `a.After(b)` is `b < a`, `t.Add(d)` is `t + d` and `time.Since(t)` read at the
  instant `now` is `now - t`.
* A Go `map[string]V` is a function `String → Option V`; `none` is an absent key.
* A Go `string` and a `[]byte` are both byte sequences; the embedding represents
  each by the text it holds, so the conversion `string(b)` is the identity.
* A Go slice is represented by the list of its elements; a string list held in a
  record keeps the difference between the nil slice and the empty one
  (`Value.nilStrList`, `Value.strList []`), which `json.Marshal` writes as `null`
  and `[]`.
-/

namespace Plutus

/-! ## Time -/

/-- An instant or a duration, in nanoseconds. -/
abbrev Time := Int

/-- The duration `time.Second`. -/
def second : Time := 1000000000

/-- The duration `time.Minute`. -/
def minute : Time := 60 * second

/-! ## Go maps -/

/-- A Go map with string keys. -/
abbrev GoMap (V : Type) := String → Option V

/-- The map with no key. -/
def GoMap.empty {V : Type} : GoMap V := fun _ => none

/-- The assignment `m[k] = v`. -/
def GoMap.set {V : Type} (m : GoMap V) (k : String) (v : V) : GoMap V :=
  fun k' => if k' = k then some v else m k'

/-! ## Rate limiter (`rateLimitMiddleware`, server.go 261-297) -/

/-- The variable `rateLimitMap`: per client, the recorded request instants. -/
abbrev RateLimitMap := GoMap (List Time)

/-- The initial value `make(map[string][]time.Time)`. -/
def rateLimitMapInit : RateLimitMap := GoMap.empty

/-- What the middleware does with a request. -/
inductive Admission where
  /-- The call `http.Error(w, "Rate limit exceeded", http.StatusTooManyRequests)`. -/
  | tooManyRequests
  /-- The call `next(w, r)`. -/
  | next
  deriving DecidableEq, Repr

/-- The client identifier (server.go 263-266): the forwarding header when it is
not empty, the connection address otherwise. -/
def clientIP (remoteAddr forwarded : String) : String :=
  if forwarded ≠ "" then forwarded else remoteAddr

/-- The cleaning loop (server.go 274-279): the entries after `window`, appended
one by one in the order they are met. -/
def validRequests (window : Time) (requests : List Time) : List Time :=
  requests.foldl
    (fun valid reqTime => if window < reqTime then valid ++ [reqTime] else valid) []

/-- One request through the critical section of `rateLimitMiddleware`
(server.go 268-295) for the client `client` at the instant `now`. -/
def rateLimitMiddleware (m : RateLimitMap) (client : String) (now : Time) :
    Admission × RateLimitMap :=
  let window := now + (-1) * minute
  let m1 : RateLimitMap :=
    match m client with
    | some requests => m.set client (validRequests window requests)
    | none => m
  let requests := (m1 client).getD []
  if requests.length ≥ 100 then
    (Admission.tooManyRequests, m1)
  else
    (Admission.next, m1.set client ((m1 client).getD [] ++ [now]))

/-- The requests of one client at the instants `ts`, in order, from the initial
map: the final map and the instants of the admitted requests. -/
def rateLimitRun (client : String) (ts : List Time) : RateLimitMap × List Time :=
  ts.foldl
    (fun acc now =>
      let r := rateLimitMiddleware acc.1 client now
      (r.2, if r.1 = Admission.next then acc.2 ++ [now] else acc.2))
    (rateLimitMapInit, [])

/-- The sequence recorded for `client`, restricted to the entries strictly newer
than `now - 60 s`, in their order. -/
def pruned (m : RateLimitMap) (client : String) (now : Time) : List Time :=
  ((m client).getD []).filter (fun t => decide (now - minute < t))

/-! ## Payloads and responses -/

/-- A serialized payload (`[]byte`). -/
abbrev Bytes := List UInt8

/-- What a handler writes to the client. -/
inductive Response where
  /-- Status 200 and `w.Write(body)`. -/
  | ok (body : Bytes)
  /-- The call `http.Error(w, message, status)`. -/
  | error (message : String) (status : Nat)
  deriving DecidableEq, Repr

/-! ## Menu cache (`menuHandler`, server.go 206-258) -/

/-- The duration `menuCacheTTL`. -/
def menuCacheTTL : Time := 10 * minute

/-- The variables `menuCache` (`none` is the nil slice) and `menuCacheTime`. -/
structure MenuCacheState where
  menuCache : Option Bytes
  menuCacheTime : Time
  deriving DecidableEq, Repr

/-- The outcome of one menu request: the response, the cache afterwards and the
world outside the handler (the store and its connection) afterwards. -/
structure MenuResult (σ : Type) where
  response : Response
  state : MenuCacheState
  world : σ

/-- One request through `menuHandler`. `now` is the clock read by
`time.Since(menuCacheTime)` (server.go 208) and `storeNow` the clock read by
`menuCacheTime = time.Now()` (server.go 254). The outer `match` is the test
`time.Since(menuCacheTime) < menuCacheTTL && menuCache != nil`: it yields the
cached bytes exactly when both conjuncts hold. `load` stands for lines 216-247,
the loader: the queries that assemble the menu data from the store, then
`json.Marshal`. It is a computation on the world `w` outside the handler: it
gives the marshalled payload, `none` when marshalling fails, and the world its
queries leave behind. The handler runs the loader by applying `load` to the
world it is in; on the path that returns the cached bytes nothing is applied
and the world stays as it was. -/
def menuHandler {σ : Type} (load : σ → Option Bytes × σ) (st : MenuCacheState)
    (now storeNow : Time) (w : σ) : MenuResult σ :=
  match (if now - st.menuCacheTime < menuCacheTTL then st.menuCache else none) with
  | some cached => { response := Response.ok cached, state := st, world := w }
  | none =>
    match load w with
    | (none, w1) =>
      { response := Response.error "Failed to marshal menu" 500, state := st, world := w1 }
    | (some b, w1) =>
      { response := Response.ok b,
        state := { menuCache := some b, menuCacheTime := storeNow },
        world := w1 }

/-! ## Search cache (`searchHandler`, server.go 532-573) -/

/-- The duration `searchCacheTTL`. -/
def searchCacheTTL : Time := 5 * minute

/-- The variables `searchCache` (`none` is the nil map) and `searchCacheTime`. -/
structure SearchCacheState where
  searchCache : Option (GoMap Bytes)
  searchCacheTime : Time

/-- The cache key of a request (server.go 533). -/
def cacheKey (query category : String) : String :=
  query ++ ":" ++ category

/-- The cache check (server.go 534-543) at the clock reading `now`: the bytes
served on a hit, `none` on a miss. -/
def searchCacheLookup (st : SearchCacheState) (key : String) (now : Time) : Option Bytes :=
  if now - st.searchCacheTime < searchCacheTTL then
    match st.searchCache with
    | some cache => cache key
    | none => none
  else none

/-- The cache write (server.go 567-573) at the clock reading `now`. -/
def searchCacheStore (st : SearchCacheState) (key : String) (b : Bytes) (now : Time) :
    SearchCacheState :=
  let cache : GoMap Bytes :=
    match st.searchCache with
    | none => GoMap.empty
    | some cache => cache
  { searchCache := some (cache.set key b), searchCacheTime := now }

/-! ## The relational store -/

/-- A dynamically typed value (`interface{}`) as a scan or the row projection
produces it. -/
inductive Value where
  /-- The nil interface (a NULL column). -/
  | null
  /-- An `int64`. -/
  | int (n : Int)
  /-- A `float64`, by its bit pattern. -/
  | float (bits : Nat)
  /-- A `bool`. -/
  | bool (b : Bool)
  /-- A `[]byte`, by the text it holds. -/
  | bytes (b : String)
  /-- A `string`. -/
  | str (s : String)
  /-- A `time.Time`. -/
  | time (t : Time)
  /-- A `[]string` that is not nil, by its elements. -/
  | strList (l : List String)
  /-- The nil `[]string`: no elements, and written `null` by `json.Marshal`. -/
  | nilStrList
  deriving DecidableEq, Repr

/-- The rows of a successful `db.Query`: the column names of `rows.Columns()` and,
per row met by `rows.Next()`, the values `rows.Scan` fills in, or `none` when the
scan of that row fails. -/
structure Rows where
  columns : List String
  rows : List (Option (List Value))
  deriving DecidableEq, Repr

/-- The store behind `db.Query(query, args...)`: `none` is a query error. -/
abbrev DB := String → List Value → Option Rows

/-- A product record (`map[string]interface{}`): `none` is the nil map. -/
abbrev Record := Option (GoMap Value)

/-! ## Search aggregator (server.go 579-625) -/

/-- The function `searchInCategory` (server.go 579-607). The loop over
`rows.Next()` declares `var result map[string]interface{}` and appends it as it
is, so every row contributes the nil map. -/
def searchInCategory (db : DB) (category query : String) : List Record :=
  let table := category
  let fields :=
    if category = "watches" then "id, brand, name, images, link"
    else if category = "perfumes" then "id, brand, title, images, url"
    else "id, brand, product_name, images, product_link"
  let sqlQuery := "SELECT " ++ fields ++ " FROM " ++ table
    ++ " WHERE brand ILIKE $1 OR product_name ILIKE $1 OR name ILIKE $1 OR title ILIKE $1 LIMIT 50"
  match db sqlQuery [Value.str ("%" ++ query ++ "%")] with
  | none => []
  | some rows =>
    rows.rows.foldl
      (fun results _ =>
        let result : Record := none
        results ++ [result])
      []

/-- The fixed category order of `searchAllCategories` (server.go 613). -/
def categories : List String :=
  ["sneakers", "apparel", "accessories", "perfumes", "watches"]

/-- The body of `searchAllCategories` (server.go 611-624), with the call
`searchInCategory(db, category, query)` of line 615 as the function `search`:
the append loop over the categories, then the cap at 50. -/
def searchAllCategoriesWith {α : Type} (search : String → List α) : List α :=
  let allResults :=
    categories.foldl (fun allResults category => allResults ++ search category) []
  if allResults.length > 50 then allResults.take 50 else allResults

/-- The function `searchAllCategories` (server.go 609-625). -/
def searchAllCategories (db : DB) (query : String) : List Record :=
  searchAllCategoriesWith (fun category => searchInCategory db category query)

/-- What `searchHandler` needs besides the cache: the store, `json.Marshal` of
the response `{"products": results}` (`none` when it fails) and the marshalled
default view of lines 507-521 (`none` when marshalling it fails). -/
structure SearchEnv where
  db : DB
  marshal : List Record → Option Bytes
  defaultView : Unit → Option Bytes

/-- The outcome of one search request: the response, the cache afterwards and
whether the search aggregator ran. -/
structure SearchResult where
  response : Response
  state : SearchCacheState
  searched : Bool

/-- One request through `searchHandler` (server.go 501-577). `now` is the clock
read by `time.Since(searchCacheTime)` (line 535) and `storeNow` the clock read
by `searchCacheTime = time.Now()` (line 572). -/
def searchHandler (env : SearchEnv) (st : SearchCacheState) (query category : String)
    (now storeNow : Time) : SearchResult :=
  if query = "" ∧ category = "" then
    match env.defaultView () with
    | none =>
      { response := Response.error "Failed to marshal search results" 500,
        state := st, searched := false }
    | some b => { response := Response.ok b, state := st, searched := false }
  else
    match searchCacheLookup st (cacheKey query category) now with
    | some cached => { response := Response.ok cached, state := st, searched := false }
    | none =>
      let results :=
        if category ≠ "" then searchInCategory env.db category query
        else searchAllCategories env.db query
      match env.marshal results with
      | none =>
        { response := Response.error "Failed to marshal search results" 500,
          state := st, searched := true }
      | some b =>
        { response := Response.ok b,
          state := searchCacheStore st (cacheKey query category) b storeNow,
          searched := true }

/-- A sequence of cache writes `(key, bytes, clock reading)`, oldest first. -/
def searchCacheStores (st : SearchCacheState) (ops : List (String × Bytes × Time)) :
    SearchCacheState :=
  ops.foldl (fun s op => searchCacheStore s op.1 op.2.1 op.2.2) st

/-- The initial search cache: the nil map and the zero instant. -/
def searchCacheInit : SearchCacheState :=
  { searchCache := none, searchCacheTime := 0 }

/-- A store for the examples. Its only table is `sneakers`: two rows match the
pattern `%nike%`, one row matches `%nike:air%`, no row matches any other
pattern, and a query on any other table fails. -/
def exampleDB : DB := fun sqlQuery args =>
  if sqlQuery = "SELECT id, brand, product_name, images, product_link FROM sneakers WHERE brand ILIKE $1 OR product_name ILIKE $1 OR name ILIKE $1 OR title ILIKE $1 LIMIT 50" then
    if args = [Value.str "%nike%"] then
      some { columns := ["id", "brand", "product_name", "images", "product_link"],
             rows := [some [Value.int 1, Value.bytes "Nike", Value.bytes "Air",
                            Value.bytes "\x7bu1, u2\x7d", Value.bytes "l1"],
                      some [Value.int 2, Value.bytes "Nike", Value.bytes "Zoom",
                            Value.null, Value.bytes "l2"]] }
    else if args = [Value.str "%nike:air%"] then
      some { columns := ["id", "brand", "product_name", "images", "product_link"],
             rows := [some [Value.int 3, Value.bytes "Nike:Air", Value.bytes "Max",
                            Value.null, Value.bytes "l3"]] }
    else
      some { columns := ["id", "brand", "product_name", "images", "product_link"],
             rows := [] }
  else none

/-- An environment for the examples: the marshalled response holds one byte per
result. -/
def exampleEnv : SearchEnv :=
  { db := exampleDB,
    marshal := fun results => some (results.map (fun _ => 110)),
    defaultView := fun _ => some [] }

/-- The bytes the map holds under `key`, whatever the age of the timestamp. -/
def cacheEntry (st : SearchCacheState) (key : String) : Option Bytes :=
  match st.searchCache with
  | some cache => cache key
  | none => none

/-- The map holds `b` under `key`. -/
abbrev HasEntry (st : SearchCacheState) (key : String) (b : Bytes) : Prop :=
  cacheEntry st key = some b

/-- A per-category search for the examples whose results can be told apart: the
result number `i` of the category `c` is the pair `(c, i)`; there are 30
results in `watches` and 10 in every other category. -/
def taggedSearch (category : String) : List (String × Nat) :=
  (List.range (if category = "watches" then 30 else 10)).map (fun i => (category, i))

/-! ## Strings (the Go library functions used by `parsePgArrayString`) -/

/-- The function `unicode.IsSpace`: the Latin-1 spaces `\t \n \v \f \r`, space,
U+0085 and U+00A0, and the other characters with the White_Space property. -/
def unicode.IsSpace (r : Char) : Bool :=
  r.toNat = 9 || r.toNat = 10 || r.toNat = 11 || r.toNat = 12 || r.toNat = 13
    || r.toNat = 32 || r.toNat = 0x85 || r.toNat = 0xA0
    || r.toNat = 0x1680 || (0x2000 ≤ r.toNat && r.toNat ≤ 0x200a)
    || r.toNat = 0x2028 || r.toNat = 0x2029 || r.toNat = 0x202f
    || r.toNat = 0x205f || r.toNat = 0x3000

/-- The characters left once the leading and the trailing ones that satisfy `p`
are removed. -/
def trimChars (p : Char → Bool) (l : List Char) : List Char :=
  ((l.dropWhile p).reverse.dropWhile p).reverse

/-- The function `strings.Trim(s, cutset)`: `s` without its leading and trailing
characters that occur in `cutset`. -/
def strings.Trim (s cutset : String) : String :=
  String.mk (trimChars (fun c => cutset.data.contains c) s.data)

/-- The function `strings.TrimSpace`: `s` without its leading and trailing white
space. -/
def strings.TrimSpace (s : String) : String :=
  String.mk (trimChars unicode.IsSpace s.data)

/-- The pieces of `l` between the occurrences of `sep`; the empty list has the
one empty piece. -/
def splitChars (sep : Char) : List Char → List (List Char)
  | [] => [[]]
  | c :: cs =>
    if c = sep then [] :: splitChars sep cs
    else
      match splitChars sep cs with
      | [] => [[c]]
      | piece :: pieces => (c :: piece) :: pieces

/-- The function `strings.Split(s, sep)` for a separator of one character. -/
def strings.Split (s : String) (sep : Char) : List String :=
  (splitChars sep s.data).map String.mk

/-! ## Row projector (server.go 112-204, 488-499) -/

/-- The function `parsePgArrayString` (server.go 489-499). -/
def parsePgArrayString (s : String) : List String :=
  let s := strings.Trim s "\x7b\x7d"
  if s = "" then []
  else
    let parts := strings.Split s ','
    parts.map strings.TrimSpace

/-- The body of the column loop of `getProducts` (server.go 130-148): the
assignment to `prod[col]` for the column `col` holding the scanned value `v`.
The test `v.([]string)` holds for a string list, nil or not, and the list is
stored as it is; `parsePgArrayString` and the literal `[]string{}` give lists
that are not nil. -/
def getProductsCell (prod : GoMap Value) (col : String) (v : Value) : GoMap Value :=
  if col = "images" then
    match v with
    | Value.strList arr => prod.set col (Value.strList arr)
    | Value.nilStrList => prod.set col Value.nilStrList
    | Value.str s => prod.set col (Value.strList (parsePgArrayString s))
    | Value.bytes b => prod.set col (Value.strList (parsePgArrayString b))
    | _ => prod.set col (Value.strList [])
  else
    match v with
    | Value.bytes b => prod.set col (Value.str b)
    | _ => prod.set col v

/-- The record `getProducts` builds from one scanned row (server.go 128-149):
`cols` are the column names and `vals` the scanned values, one per column. -/
def getProductsRow (cols : List String) (vals : List Value) : GoMap Value :=
  (cols.zip vals).foldl (fun prod cv => getProductsCell prod cv.1 cv.2) GoMap.empty

/-- The function `getProducts` (server.go 112-154). -/
def getProducts (db : DB) (table fields : String) (limit : Int) : List Record :=
  let query := "SELECT " ++ fields ++ " FROM " ++ table ++ " LIMIT $1"
  match db query [Value.int limit] with
  | none => []
  | some rows =>
    rows.rows.foldl
      (fun products row =>
        match row with
        | some vals => products ++ [some (getProductsRow rows.columns vals)]
        | none => products)
      []

/-- The body of the column loop of `getProductsByIndexes` (server.go 174-192). -/
def getProductsByIndexesCell (prod : GoMap Value) (col : String) (v : Value) :
    GoMap Value :=
  if col = "images" then
    match v with
    | Value.strList arr => prod.set col (Value.strList arr)
    | Value.nilStrList => prod.set col Value.nilStrList
    | Value.str s => prod.set col (Value.strList (parsePgArrayString s))
    | Value.bytes b => prod.set col (Value.strList (parsePgArrayString b))
    | _ => prod.set col (Value.strList [])
  else
    match v with
    | Value.bytes b => prod.set col (Value.str b)
    | _ => prod.set col v

/-- The record `getProductsByIndexes` builds from one scanned row
(server.go 172-193). -/
def getProductsByIndexesRow (cols : List String) (vals : List Value) : GoMap Value :=
  (cols.zip vals).foldl (fun prod cv => getProductsByIndexesCell prod cv.1 cv.2) GoMap.empty

/-- The function `getProductsByIndexes` (server.go 156-204). -/
def getProductsByIndexes (db : DB) (table fields : String) (indexes : List Int) :
    List Record :=
  let query := "SELECT " ++ fields ++ " FROM " ++ table
  match db query [] with
  | none => []
  | some rows =>
    let allProducts : List Record :=
      rows.rows.foldl
        (fun allProducts row =>
          match row with
          | some vals => allProducts ++ [some (getProductsByIndexesRow rows.columns vals)]
          | none => allProducts)
        []
    indexes.foldl
      (fun fixed (idx : Int) =>
        if idx ≥ 0 ∧ idx < (allProducts.length : Int) then
          fixed ++ [allProducts.getD idx.toNat none]
        else fixed)
      []

/-- The images field as the specification words it, by the shape of the column
value: a string list as it is, a string or raw bytes parsed as array text, and
the empty list for any other value. -/
def imagesSpec : Value → Value
  | Value.strList arr => Value.strList arr
  | Value.nilStrList => Value.nilStrList
  | Value.str s => Value.strList (parsePgArrayString s)
  | Value.bytes b => Value.strList (parsePgArrayString b)
  | _ => Value.strList []

/-- An array element as the round trip needs it: no comma, no brace, and no white
space at either end. -/
def PlainElement (e : List Char) : Prop :=
  ',' ∉ e ∧ '{' ∉ e ∧ '}' ∉ e
    ∧ (∀ c ∈ e.head?, unicode.IsSpace c = false)
    ∧ (∀ c ∈ e.getLast?, unicode.IsSpace c = false)

instance (e : List Char) : Decidable (PlainElement e) := by
  unfold PlainElement
  infer_instance

/-- White space only. -/
def Padding (l : List Char) : Prop :=
  ∀ c ∈ l, unicode.IsSpace c = true

instance (l : List Char) : Decidable (Padding l) := by
  unfold Padding
  infer_instance

/-- The array text of the items `(left padding, element, right padding)`: the
padded elements joined by commas, inside one pair of braces. -/
def arrayText (items : List (List Char × List Char × List Char)) : String :=
  String.mk
    (['{'] ++ List.intercalate [','] (items.map (fun it => it.1 ++ it.2.1 ++ it.2.2))
      ++ ['}'])

/-- The slice `allProducts` of `getProductsByIndexes` (server.go 157-196): the
projected rows of the current result, in result order, the rows whose scan
fails left out; empty when the query fails. -/
def allProducts (db : DB) (table fields : String) : List Record :=
  match db ("SELECT " ++ fields ++ " FROM " ++ table) [] with
  | none => []
  | some rows =>
    rows.rows.filterMap
      (fun row => row.map (fun vals => some (getProductsByIndexesRow rows.columns vals)))

/-- The entries of `all` at the listed positions that exist, in the order of the
list. -/
def selectPositions (all : List Record) (indexes : List Int) : List Record :=
  (indexes.filter (fun idx => decide (0 ≤ idx ∧ idx < (all.length : Int)))).map
    (fun idx => all.getD idx.toNat none)

/-- The `products` entries of the menu data (server.go 218-246), one per
category. -/
structure MenuProducts where
  sneaker : List Record
  apparel : List Record
  watch : List Record
  perfume : List Record
  accessories : List Record

/-- The product samples `menuHandler` loads (server.go 221, 227, 232, 238, 244). -/
def menuProducts (db : DB) : MenuProducts :=
  { sneaker := getProductsByIndexes db "sneakers"
      "id, brand, product_name, images, product_link" [2, 4, 6, 8, 10, 13, 15, 16, 20],
    apparel := getProductsByIndexes db "apparel"
      "id, brand, product_name, images, product_link, gender, subcategory"
      [1, 2, 3, 4, 5, 6],
    watch := getProductsByIndexes db "watches"
      "id, brand, name, images, link, gender" [1, 2, 3, 4, 5, 6],
    perfume := getProductsByIndexes db "perfumes"
      "id, brand, title, images, url, fragrance_family, subcategory" [1, 2, 3, 4, 5, 6],
    accessories := getProductsByIndexes db "accessories"
      "id, brand, product_name, images, product_link, gender, subcategory"
      [1, 2, 3, 4, 5, 6] }

/-- A store for the examples in which every query returns the `n` rows with the
identifiers 0 to `n - 1`, in that order. -/
def numberedDB (n : Nat) : DB := fun _ _ =>
  some { columns := ["id", "images"],
         rows := (List.range n).map (fun i => some [Value.int i, Value.null]) }

/-- The `id` fields of a list of records. -/
def recordIds (records : List Record) : List (Option Value) :=
  records.map
    (fun r =>
      match r with
      | some m => m "id"
      | none => none)

/-! ## Menu loader examples -/

/-- The values `json.Marshal` refuses with an `UnsupportedValueError`: a
`float64` that is NaN or infinite, that is, whose exponent bits are all ones. -/
def jsonUnsupported : Value → Bool
  | Value.float bits => (bits / 4503599627370496) % 2048 = 2047
  | _ => false

/-- A loader for the examples, on a world that counts the runs of the loader.
It builds the sneakers sample of the menu from the store; marshalling fails
when the `id` of a sampled record is a value `json.Marshal` refuses, and
otherwise the payload holds one byte per sampled record. -/
def exampleMenuLoad (db : DB) : Nat → Option Bytes × Nat := fun runs =>
  (if (menuProducts db).sneaker.any
        (fun r =>
          match r with
          | some m =>
            match m "id" with
            | some v => jsonUnsupported v
            | none => false
          | none => false)
    then none
    else some ((menuProducts db).sneaker.map (fun _ => 112)),
   runs + 1)

/-- A store for the examples in which every query returns three rows, the third
with the `id` NaN (the `float64` with the bits 0x7FF8000000000000). -/
def nanDB : DB := fun _ _ =>
  some { columns := ["id", "images"],
         rows := [some [Value.int 0, Value.null], some [Value.int 1, Value.null],
                  some [Value.float 9221120237041090560, Value.null]] }

/-- The empty menu cache: the nil slice and the zero instant. -/
def menuCacheInit : MenuCacheState :=
  { menuCache := none, menuCacheTime := 0 }

/-! ## Accent normalization (`normalizeAccents`, graph/resolver.go 12-36) -/

/-- The function `normalizeAccents` (graph/resolver.go 13-36): the runes of `s`
written one by one to the builder, each through the `switch`. -/
def normalizeAccents (s : String) : String :=
  String.mk
    (s.data.foldl
      (fun result r =>
        match r with
        | 'é' | 'è' | 'ê' | 'ë' => result ++ ['e']
        | 'à' | 'â' | 'ä' => result ++ ['a']
        | 'î' | 'ï' => result ++ ['i']
        | 'ô' | 'ö' => result ++ ['o']
        | 'ù' | 'û' | 'ü' => result ++ ['u']
        | 'ç' => result ++ ['c']
        | 'ñ' => result ++ ['n']
        | _ => result ++ [r])
      [])

/-- The relation between a product sample, the projected rows it is taken from
and the literal index list: the sample is the rows at the listed positions that
exist, so it has at most one record per index, and exactly the rows at the
listed positions when every position exists. -/
def SampleOf (sample all : List Record) (indexes : List Int) : Prop :=
  sample = selectPositions all indexes
    ∧ sample.length ≤ indexes.length
    ∧ ((∀ idx ∈ indexes, 0 ≤ idx ∧ idx < (all.length : Int)) →
        sample = indexes.map (fun idx => all.getD idx.toNat none)
        ∧ sample.length = indexes.length)

/-! # Theorems -/

set_option maxRecDepth 1000000

/-! ## Rate limiter: lemmas -/

theorem GoMap.set_self {V : Type} (m : GoMap V) (k : String) (v : V) :
    (m.set k v) k = some v := by
  simp [GoMap.set]

theorem GoMap.set_other {V : Type} (m : GoMap V) (k k' : String) (v : V) (h : k' ≠ k) :
    (m.set k v) k' = m k' := by
  simp [GoMap.set, h]

theorem validRequests_foldl (window : Time) (requests acc : List Time) :
    requests.foldl
      (fun valid reqTime => if window < reqTime then valid ++ [reqTime] else valid) acc
      = acc ++ requests.filter (fun t => decide (window < t)) := by
  induction requests generalizing acc with
  | nil => simp
  | cons t rest ih =>
    by_cases h : window < t
    · simp [List.foldl_cons, h, ih]
    · simp [List.foldl_cons, h, ih]

theorem validRequests_eq_filter (window : Time) (requests : List Time) :
    validRequests window requests = requests.filter (fun t => decide (window < t)) := by
  unfold validRequests
  rw [validRequests_foldl]
  simp

theorem rateLimit_decision (m : RateLimitMap) (client : String) (now : Time) :
    (rateLimitMiddleware m client now).1
      = if 100 ≤ (pruned m client now).length then Admission.tooManyRequests
        else Admission.next := by
  unfold rateLimitMiddleware pruned
  have hw : now + (-1) * minute = now - minute := by ring
  cases hm : m client with
  | none => simp [hm]
  | some requests =>
    simp only [hm, GoMap.set, validRequests_eq_filter, hw, if_true, Option.getD_some]
    split <;> simp_all

theorem rateLimit_sequence (m : RateLimitMap) (client : String) (now : Time) :
    ((rateLimitMiddleware m client now).2 client).getD []
      = if 100 ≤ (pruned m client now).length then pruned m client now
        else pruned m client now ++ [now] := by
  unfold rateLimitMiddleware pruned
  have hw : now + (-1) * minute = now - minute := by ring
  cases hm : m client with
  | none => simp [hm, GoMap.set]
  | some requests =>
    simp only [hm, validRequests_eq_filter, hw]
    by_cases h : 100 ≤ (List.filter (fun t => decide (now - minute < t)) requests).length
    · simp [GoMap.set_self, h]
    · simp [GoMap.set_self, h]

theorem rateLimit_other (m : RateLimitMap) (client other : String) (now : Time)
    (h : other ≠ client) :
    (rateLimitMiddleware m client now).2 other = m other := by
  unfold rateLimitMiddleware
  cases hm : m client with
  | none =>
    simp only [hm]
    split <;> simp [GoMap.set, h]
  | some requests =>
    simp only [hm]
    split <;> simp [GoMap.set, h]

theorem rateLimitRun_snoc (client : String) (ts : List Time) (t : Time) :
    rateLimitRun client (ts ++ [t])
      = ((rateLimitMiddleware (rateLimitRun client ts).1 client t).2,
          if (rateLimitMiddleware (rateLimitRun client ts).1 client t).1 = Admission.next
          then (rateLimitRun client ts).2 ++ [t] else (rateLimitRun client ts).2) := by
  simp [rateLimitRun, List.foldl_append]

theorem filter_window_mono (l : List Time) (t now : Time) (h : t ≤ now) :
    (l.filter (fun x => decide (t - minute < x))).filter (fun x => decide (now - minute < x))
      = l.filter (fun x => decide (now - minute < x)) := by
  rw [List.filter_filter]
  apply List.filter_congr
  intro x _
  by_cases hx : now - minute < x
  · have : t - minute < x := lt_of_le_of_lt (sub_le_sub_right h minute) hx
    simp [hx, this]
  · simp [hx]

theorem pruned_mono (m : RateLimitMap) (client : String) (t now : Time) (h : t ≤ now) :
    (pruned m client t).filter (fun x => decide (now - minute < x)) = pruned m client now := by
  unfold pruned
  exact filter_window_mono _ t now h

/-- The recorded sequence, pruned at any instant not before the last request, is
the log of admitted requests restricted to the same window. -/
theorem rateLimitRun_pruned (client : String) (ts : List Time)
    (hs : ts.Pairwise (· ≤ ·)) (now : Time) (hn : ∀ t ∈ ts, t ≤ now) :
    pruned (rateLimitRun client ts).1 client now
      = (rateLimitRun client ts).2.filter (fun t => decide (now - minute < t)) := by
  induction ts using List.reverseRecOn generalizing now with
  | nil => simp [rateLimitRun, pruned, rateLimitMapInit, GoMap.empty]
  | append_singleton p t ih =>
    rw [List.pairwise_append] at hs
    obtain ⟨hp, _, hpt⟩ := hs
    have hpt2 : ∀ x ∈ p, x ≤ t := fun x hx => hpt x hx t (by simp)
    have htn : t ≤ now := hn t (by simp)
    have ih1 := ih hp t hpt2
    have ih2 := ih hp now (fun x hx => le_trans (hpt2 x hx) htn)
    rw [rateLimitRun_snoc]
    simp only []
    have hseq := rateLimit_sequence (rateLimitRun client p).1 client t
    have hdec := rateLimit_decision (rateLimitRun client p).1 client t
    have hmono := pruned_mono (rateLimitRun client p).1 client t now htn
    by_cases h : 100 ≤ (pruned (rateLimitRun client p).1 client t).length
    · rw [if_pos h] at hseq hdec
      rw [hdec]
      simp only [reduceCtorEq, if_false]
      unfold pruned at hmono ⊢
      rw [hseq]
      unfold pruned at ih2
      rw [← ih2]
      exact hmono
    · rw [if_neg h] at hseq hdec
      rw [hdec]
      simp only [if_true]
      unfold pruned at hmono ih2 ⊢
      rw [hseq, List.filter_append, List.filter_append, ← ih2]
      unfold pruned
      rw [hmono]

theorem rateLimitRun_log_length (client : String) (ts : List Time) :
    (rateLimitRun client ts).2.length ≤ ts.length := by
  induction ts using List.reverseRecOn with
  | nil => simp [rateLimitRun]
  | append_singleton p t ih =>
    rw [rateLimitRun_snoc]
    simp only []
    split
    · simpa using ih
    · simp only [List.length_append, List.length_singleton]
      omega

theorem rateLimitRun_log_mem (client : String) (ts : List Time) :
    ∀ x ∈ (rateLimitRun client ts).2, x ∈ ts := by
  induction ts using List.reverseRecOn with
  | nil => simp [rateLimitRun]
  | append_singleton p t ih =>
    rw [rateLimitRun_snoc]
    simp only []
    intro x hx
    split at hx
    · rcases List.mem_append.mp hx with h | h
      · exact List.mem_append_left _ (ih x h)
      · exact List.mem_append_right _ h
    · exact List.mem_append_left _ (ih x hx)

/-- The decision on a request that follows the non-decreasing requests `ts`. -/
theorem rateLimitRun_decision (client : String) (ts : List Time) (now : Time)
    (hs : (ts ++ [now]).Pairwise (· ≤ ·)) :
    (rateLimitMiddleware (rateLimitRun client ts).1 client now).1
      = if 100 ≤ ((rateLimitRun client ts).2.filter
            (fun t => decide (now - minute < t))).length
        then Admission.tooManyRequests else Admission.next := by
  rw [List.pairwise_append] at hs
  obtain ⟨hp, _, hpt⟩ := hs
  rw [rateLimit_decision,
    rateLimitRun_pruned client ts hp now (fun x hx => hpt x hx now (by simp))]

/-- While at most 100 requests have been made, every one of them was admitted. -/
theorem rateLimitRun_log_eq (client : String) (ts : List Time)
    (hs : ts.Pairwise (· ≤ ·)) (hl : ts.length ≤ 100) :
    (rateLimitRun client ts).2 = ts := by
  induction ts using List.reverseRecOn with
  | nil => simp [rateLimitRun]
  | append_singleton p t ih =>
    have hp : p.Pairwise (· ≤ ·) := (List.pairwise_append.mp hs).1
    have hlen : p.length < 100 := by
      simp only [List.length_append, List.length_singleton] at hl
      omega
    have ihp := ih hp (le_of_lt hlen)
    rw [rateLimitRun_snoc, rateLimitRun_decision client p t hs, ihp]
    have hf : ¬ 100 ≤ (p.filter (fun x => decide (t - minute < x))).length := by
      have := List.length_filter_le (fun x => decide (t - minute < x)) p
      omega
    simp [hf]

/-- Requests that all fall inside one window admit at most 100 of them. -/
theorem rateLimitRun_log_window (client : String) (ts : List Time) (t0 : Time)
    (hs : ts.Pairwise (· ≤ ·)) (hw : ∀ t ∈ ts, t0 ≤ t ∧ t - minute < t0) :
    (rateLimitRun client ts).2.length ≤ 100 := by
  induction ts using List.reverseRecOn with
  | nil => simp [rateLimitRun]
  | append_singleton p t ih =>
    have hp : p.Pairwise (· ≤ ·) := (List.pairwise_append.mp hs).1
    have ihp := ih hp (fun x hx => hw x (List.mem_append_left _ hx))
    rw [rateLimitRun_snoc, rateLimitRun_decision client p t hs]
    have hall : (rateLimitRun client p).2.filter (fun x => decide (t - minute < x))
        = (rateLimitRun client p).2 := by
      rw [List.filter_eq_self]
      intro x hx
      have hxp := hw x (List.mem_append_left _ (rateLimitRun_log_mem client p x hx))
      have ht := hw t (by simp)
      have : t - minute < x := lt_of_lt_of_le ht.2 hxp.1
      simp [this]
    rw [hall]
    by_cases h : 100 ≤ (rateLimitRun client p).2.length
    · simp [h, ihp]
    · simp only [h, if_false, if_true, List.length_append, List.length_singleton]
      omega

/-- The first request of a run is admitted and stays in the log. -/
theorem rateLimitRun_head_mem (client : String) (t0 : Time) (rest : List Time) :
    t0 ∈ (rateLimitRun client (t0 :: rest)).2 := by
  induction rest using List.reverseRecOn with
  | nil => simp [rateLimitRun, rateLimitMiddleware, rateLimitMapInit, GoMap.empty]
  | append_singleton p t ih =>
    rw [← List.cons_append, rateLimitRun_snoc]
    simp only []
    split
    · exact List.mem_append_left _ ih
    · exact ih

/-! ## Rate limiter: claims -/

/-- C1. From the empty history, for the non-decreasing request instants `ts` of
one client followed by a request at `now`: the request at `now` is admitted
exactly when fewer than 100 of the earlier admitted requests are strictly newer
than `now - 60 s`. Hence a request with fewer than 100 predecessors is admitted
(the first 100 all pass), the 101st is rejected when the 100 before it are all
inside its window, and after any requests confined to the 60 seconds that
follow the first one, a request made when the first is 60 s old or more is
admitted. -/
theorem rateLimit_sliding_window (client : String) (ts : List Time) (now : Time)
    (hs : (ts ++ [now]).Pairwise (· ≤ ·)) :
    ((rateLimitMiddleware (rateLimitRun client ts).1 client now).1 = Admission.next
        ↔ ((rateLimitRun client ts).2.filter
            (fun t => decide (now - minute < t))).length < 100)
    ∧ (ts.length < 100 →
        (rateLimitMiddleware (rateLimitRun client ts).1 client now).1 = Admission.next)
    ∧ (ts.length = 100 → (∀ t ∈ ts, now - minute < t) →
        (rateLimitRun client ts).2 = ts
        ∧ (rateLimitMiddleware (rateLimitRun client ts).1 client now).1
            = Admission.tooManyRequests)
    ∧ (∀ t0 rest, ts = t0 :: rest → (∀ t ∈ ts, t - minute < t0) → t0 + minute ≤ now →
        (rateLimitMiddleware (rateLimitRun client ts).1 client now).1 = Admission.next) := by
  have hdec := rateLimitRun_decision client ts now hs
  have hp : ts.Pairwise (· ≤ ·) := (List.pairwise_append.mp hs).1
  refine ⟨?_, ?_, ?_, ?_⟩
  · rw [hdec]
    by_cases h : 100 ≤ ((rateLimitRun client ts).2.filter
        (fun t => decide (now - minute < t))).length
    · simp only [h, if_true, reduceCtorEq, false_iff]
      omega
    · simp only [h, if_false, true_iff]
      omega
  · intro hl
    rw [hdec]
    have h1 := List.length_filter_le (fun t => decide (now - minute < t))
      (rateLimitRun client ts).2
    have h2 := rateLimitRun_log_length client ts
    have h : ¬ 100 ≤ ((rateLimitRun client ts).2.filter
        (fun t => decide (now - minute < t))).length := by omega
    simp [h]
  · intro hl hw
    have hlog := rateLimitRun_log_eq client ts hp (le_of_eq hl)
    refine ⟨hlog, ?_⟩
    rw [hdec, hlog]
    have hall : ts.filter (fun t => decide (now - minute < t)) = ts := by
      rw [List.filter_eq_self]
      intro x hx
      simp [hw x hx]
    rw [hall]
    simp [hl]
  · intro t0 rest hts hw hold
    rw [hdec]
    have hge : ∀ t ∈ ts, t0 ≤ t := by
      intro t ht
      rw [hts] at ht hp
      rcases List.mem_cons.mp ht with h | h
      · exact le_of_eq h.symm
      · exact (List.pairwise_cons.mp hp).1 t h
    have hlen := rateLimitRun_log_window client ts t0 hp (fun t ht => ⟨hge t ht, hw t ht⟩)
    have hmem : t0 ∈ (rateLimitRun client ts).2 := by
      rw [hts]
      exact rateLimitRun_head_mem client t0 rest
    have hlt : ((rateLimitRun client ts).2.filter
        (fun t => decide (now - minute < t))).length < (rateLimitRun client ts).2.length := by
      rw [List.length_filter_lt_length_iff_exists]
      refine ⟨t0, hmem, ?_⟩
      have : ¬ now - minute < t0 := not_lt.mpr (le_sub_iff_add_le.mpr hold)
      simp [this]
    have h : ¬ 100 ≤ ((rateLimitRun client ts).2.filter
        (fun t => decide (now - minute < t))).length := by omega
    simp [h]

/-- C1, at a concrete input: after 100 requests at the instant 0, a request one
second later is rejected and a request 60 seconds later is admitted. -/
theorem rateLimit_sliding_window_witness :
    (List.replicate 100 (0 : Time) ++ [second]).Pairwise (· ≤ ·)
    ∧ (rateLimitMiddleware (rateLimitRun "10.0.0.1" (List.replicate 100 0)).1 "10.0.0.1"
        second).1 = Admission.tooManyRequests
    ∧ (rateLimitMiddleware (rateLimitRun "10.0.0.1" (List.replicate 100 0)).1 "10.0.0.1"
        minute).1 = Admission.next :=
  ⟨by decide,
    ((rateLimit_sliding_window "10.0.0.1" (List.replicate 100 0) second (by decide)).2.2.1
      (by decide) (by decide)).2,
    (rateLimit_sliding_window "10.0.0.1" (List.replicate 100 0) minute (by decide)).2.2.2
      0 (List.replicate 99 0) (by decide) (by decide) (by decide)⟩

/-- C2. One request step prunes the client's sequence to the entries strictly
newer than `now - 60 s`, in their order; with 100 or more entries left the
request is rejected and the client's sequence is the pruned one, without `now`;
otherwise it is admitted and the sequence is the pruned one followed by `now`.
The sequence of every other client is unchanged. -/
theorem rateLimit_step (m : RateLimitMap) (client : String) (now : Time) :
    pruned m client now = ((m client).getD []).filter (fun t => decide (now - minute < t))
    ∧ (100 ≤ (pruned m client now).length →
        (rateLimitMiddleware m client now).1 = Admission.tooManyRequests
        ∧ ((rateLimitMiddleware m client now).2 client).getD [] = pruned m client now)
    ∧ ((pruned m client now).length < 100 →
        (rateLimitMiddleware m client now).1 = Admission.next
        ∧ ((rateLimitMiddleware m client now).2 client).getD []
            = pruned m client now ++ [now])
    ∧ (∀ other, other ≠ client → (rateLimitMiddleware m client now).2 other = m other) := by
  refine ⟨rfl, ?_, ?_, ?_⟩
  · intro h
    rw [rateLimit_decision, rateLimit_sequence]
    simp [h]
  · intro h
    have h2 : ¬ 100 ≤ (pruned m client now).length := by omega
    rw [rateLimit_decision, rateLimit_sequence]
    simp [h2]
  · intro other h
    exact rateLimit_other m client other now h

/-! ## Search cache: lemmas -/

theorem searchCacheStores_snoc (st : SearchCacheState) (ops : List (String × Bytes × Time))
    (op : String × Bytes × Time) :
    searchCacheStores st (ops ++ [op])
      = searchCacheStore (searchCacheStores st ops) op.1 op.2.1 op.2.2 := by
  simp [searchCacheStores, List.foldl_append]

theorem searchCacheStores_append (st : SearchCacheState)
    (ops ops2 : List (String × Bytes × Time)) :
    searchCacheStores st (ops ++ ops2) = searchCacheStores (searchCacheStores st ops) ops2 := by
  simp [searchCacheStores, List.foldl_append]

theorem searchCacheStore_hasEntry (st : SearchCacheState) (key : String) (b : Bytes)
    (now : Time) : HasEntry (searchCacheStore st key b now) key b := by
  simp [HasEntry, cacheEntry, searchCacheStore, GoMap.set_self]

theorem searchCacheStore_keeps (st : SearchCacheState) (key key2 : String) (b b2 : Bytes)
    (now : Time) (h : HasEntry st key b) (hne : key2 ≠ key) :
    HasEntry (searchCacheStore st key2 b2 now) key b := by
  unfold HasEntry cacheEntry at h ⊢
  simp only [searchCacheStore]
  rw [GoMap.set_other _ key2 key b2 (Ne.symm hne)]
  cases hc : st.searchCache with
  | none => simp [hc] at h
  | some cache => simpa [hc] using h

theorem searchCacheStores_keeps (st : SearchCacheState) (key : String) (b : Bytes)
    (ops : List (String × Bytes × Time)) (h : HasEntry st key b)
    (hne : ∀ op ∈ ops, op.1 ≠ key) :
    HasEntry (searchCacheStores st ops) key b := by
  induction ops using List.reverseRecOn with
  | nil => simpa [searchCacheStores] using h
  | append_singleton p op ih =>
    rw [searchCacheStores_snoc]
    exact searchCacheStore_keeps _ key op.1 b op.2.1 op.2.2
      (ih (fun o ho => hne o (List.mem_append_left _ ho))) (hne op (by simp))

theorem searchCacheStores_time (st : SearchCacheState) (ops : List (String × Bytes × Time))
    (d : String × Bytes × Time) (h : ops ≠ []) :
    (searchCacheStores st ops).searchCacheTime = (ops.getLast?.getD d).2.2 := by
  induction ops using List.reverseRecOn with
  | nil => exact absurd rfl h
  | append_singleton p op _ =>
    rw [searchCacheStores_snoc]
    simp [searchCacheStore]

theorem searchCacheLookup_hasEntry (st : SearchCacheState) (key : String) (b : Bytes)
    (now : Time) (h : HasEntry st key b) :
    searchCacheLookup st key now
      = if now - st.searchCacheTime < searchCacheTTL then some b else none := by
  unfold HasEntry cacheEntry at h
  unfold searchCacheLookup
  rw [h]

theorem getLast_after (pre post : List (String × Bytes × Time)) (x : String × Bytes × Time) :
    ((pre ++ x :: post).getLast?.getD x) = post.getLast?.getD x := by
  rw [List.getLast?_append, List.getLast?_cons]
  simp

/-! ## Search cache: claims -/

/-- C3. After any sequence of cache writes in which the last write of the key `K`
stored `b` (at the instant `tK`), a lookup of `K` at the instant `T` is a hit
returning `b` if and only if `T` minus the instant of the most recent write of
any key is below 5 minutes, and a miss otherwise; `tK` plays no part. The
handler serves `b` without searching in the first case and searches in the
second. -/
theorem searchCache_shared_timestamp (st0 : SearchCacheState)
    (pre post : List (String × Bytes × Time)) (K : String) (b : Bytes) (tK T : Time)
    (hpost : ∀ op ∈ post, op.1 ≠ K) :
    (searchCacheLookup (searchCacheStores st0 (pre ++ (K, b, tK) :: post)) K T = some b
        ↔ T - (post.getLast?.getD (K, b, tK)).2.2 < searchCacheTTL)
    ∧ (¬ T - (post.getLast?.getD (K, b, tK)).2.2 < searchCacheTTL →
        searchCacheLookup (searchCacheStores st0 (pre ++ (K, b, tK) :: post)) K T = none)
    ∧ (∀ (env : SearchEnv) (query category : String) (storeNow : Time),
        cacheKey query category = K → ¬ (query = "" ∧ category = "") →
        ((searchHandler env (searchCacheStores st0 (pre ++ (K, b, tK) :: post))
            query category T storeNow).searched = false
          ↔ T - (post.getLast?.getD (K, b, tK)).2.2 < searchCacheTTL)
        ∧ (T - (post.getLast?.getD (K, b, tK)).2.2 < searchCacheTTL →
            (searchHandler env (searchCacheStores st0 (pre ++ (K, b, tK) :: post))
              query category T storeNow).response = Response.ok b)) := by
  have hentry : HasEntry (searchCacheStores st0 (pre ++ (K, b, tK) :: post)) K b := by
    rw [searchCacheStores_append]
    have : (K, b, tK) :: post = [(K, b, tK)] ++ post := rfl
    rw [this, searchCacheStores_append]
    apply searchCacheStores_keeps _ K b post _ hpost
    exact searchCacheStore_hasEntry _ K b tK
  have htime : (searchCacheStores st0 (pre ++ (K, b, tK) :: post)).searchCacheTime
      = (post.getLast?.getD (K, b, tK)).2.2 := by
    rw [searchCacheStores_time st0 _ (K, b, tK) (by simp), getLast_after]
  have hlook := searchCacheLookup_hasEntry _ K b T hentry
  rw [htime] at hlook
  refine ⟨?_, ?_, ?_⟩
  · rw [hlook]
    by_cases h : T - (post.getLast?.getD (K, b, tK)).2.2 < searchCacheTTL <;> simp [h]
  · intro h
    rw [hlook]
    simp [h]
  · intro env query category storeNow hkey hne
    unfold searchHandler
    rw [if_neg hne, hkey, hlook]
    by_cases h : T - (post.getLast?.getD (K, b, tK)).2.2 < searchCacheTTL
    · simp [h]
    · simp only [h, if_false]
      cases env.marshal (if category ≠ "" then searchInCategory env.db category query
        else searchAllCategories env.db query) <;> simp

/-- C3, at a concrete input: the key `nike:sneakers` is written at 0 and an
unrelated key at 4 minutes; at 8 minutes, more than 5 minutes after its own
write, the first key is still a hit. -/
theorem searchCache_shared_timestamp_witness :
    (∀ op ∈ [("adidas:", ([2] : Bytes), 4 * minute)], op.1 ≠ "nike:sneakers")
    ∧ searchCacheLookup
        (searchCacheStores searchCacheInit
          ([] ++ ("nike:sneakers", [1], 0) :: [("adidas:", [2], 4 * minute)]))
        "nike:sneakers" (8 * minute) = some [1] :=
  ⟨by decide,
    (searchCache_shared_timestamp searchCacheInit [] [("adidas:", [2], 4 * minute)]
      "nike:sneakers" [1] 0 (8 * minute) (by decide)).1.mpr (by decide)⟩

/-- C4, refuted as stated: `nike` in `sneakers` is stored at 0; at 6 minutes the
shared timestamp is past the TTL and the key is a miss; a search for `adidas`
then stores another key and refreshes the timestamp; at 7 minutes the first key
is a hit again, served with its old bytes and without searching, although it
was never stored again. -/
theorem searchCache_discard_counterexample :
    (searchHandler exampleEnv searchCacheInit "nike" "sneakers" 0 0).searched = true
    ∧ searchCacheLookup (searchHandler exampleEnv searchCacheInit "nike" "sneakers" 0 0).state
        (cacheKey "nike" "sneakers") (6 * minute) = none
    ∧ (searchHandler exampleEnv
        (searchHandler exampleEnv searchCacheInit "nike" "sneakers" 0 0).state
        "adidas" "" (6 * minute) (6 * minute)).searched = true
    ∧ (searchHandler exampleEnv
        (searchHandler exampleEnv
          (searchHandler exampleEnv searchCacheInit "nike" "sneakers" 0 0).state
          "adidas" "" (6 * minute) (6 * minute)).state
        "nike" "sneakers" (7 * minute) (7 * minute)).searched = false
    ∧ (searchHandler exampleEnv
        (searchHandler exampleEnv
          (searchHandler exampleEnv searchCacheInit "nike" "sneakers" 0 0).state
          "adidas" "" (6 * minute) (6 * minute)).state
        "nike" "sneakers" (7 * minute) (7 * minute)).response = Response.ok [110, 110] := by
  decide

/-- C4, amended. Once the shared timestamp has aged past the 5-minute TTL every
lookup is a miss, whatever its key. The next write keeps the old map: it sets
its own key `K2` to the bytes it writes, leaves every other key as it was and
refreshes the timestamp, so a key `K` stored before the expiry is a hit again,
with its old bytes, on every lookup made less than 5 minutes after a write of
another key, as is the key just written. -/
theorem searchCache_expiry_keeps_map (st : SearchCacheState) (K : String) (b : Bytes)
    (T : Time) (hK : HasEntry st K b) (hexp : searchCacheTTL ≤ T - st.searchCacheTime) :
    (∀ key, searchCacheLookup st key T = none)
    ∧ (∀ (K2 : String) (b2 : Bytes) (T1 : Time), K2 ≠ K →
        HasEntry (searchCacheStore st K2 b2 T1) K2 b2
        ∧ (∀ key, key ≠ K2 →
            cacheEntry (searchCacheStore st K2 b2 T1) key = cacheEntry st key)
        ∧ HasEntry (searchCacheStore st K2 b2 T1) K b
        ∧ (searchCacheStore st K2 b2 T1).searchCacheTime = T1
        ∧ ∀ T2, T2 - T1 < searchCacheTTL →
            searchCacheLookup (searchCacheStore st K2 b2 T1) K T2 = some b
            ∧ searchCacheLookup (searchCacheStore st K2 b2 T1) K2 T2 = some b2) := by
  refine ⟨?_, ?_⟩
  · intro key
    unfold searchCacheLookup
    rw [if_neg (not_lt.mpr hexp)]
  · intro K2 b2 T1 hne
    have hkeep := searchCacheStore_keeps st K K2 b b2 T1 hK hne
    have hown := searchCacheStore_hasEntry st K2 b2 T1
    have htime : (searchCacheStore st K2 b2 T1).searchCacheTime = T1 := rfl
    refine ⟨hown, ?_, hkeep, rfl, ?_⟩
    · intro key hkey
      unfold cacheEntry
      simp only [searchCacheStore]
      rw [GoMap.set_other _ K2 key b2 hkey]
      cases st.searchCache with
      | none => rfl
      | some cache => rfl
    · intro T2 hT2
      rw [searchCacheLookup_hasEntry _ K b T2 hkeep,
        searchCacheLookup_hasEntry _ K2 b2 T2 hown, htime, if_pos hT2, if_pos hT2]
      exact ⟨rfl, rfl⟩

/-- C4 amended, at a concrete input: a key written at 0, the timestamp expired
at 6 minutes, another key written then, and both keys looked up at 7 minutes. -/
theorem searchCache_expiry_keeps_map_witness :
    HasEntry (searchCacheStore searchCacheInit "nike:sneakers" [1] 0) "nike:sneakers" [1]
    ∧ searchCacheTTL ≤ 6 * minute - 0
    ∧ searchCacheLookup
        (searchCacheStore (searchCacheStore searchCacheInit "nike:sneakers" [1] 0)
          "adidas:" [2] (6 * minute))
        "nike:sneakers" (7 * minute) = some [1]
    ∧ searchCacheLookup
        (searchCacheStore (searchCacheStore searchCacheInit "nike:sneakers" [1] 0)
          "adidas:" [2] (6 * minute))
        "adidas:" (7 * minute) = some [2] :=
  ⟨by decide, by decide,
    (((searchCache_expiry_keeps_map (searchCacheStore searchCacheInit "nike:sneakers" [1] 0)
        "nike:sneakers" [1] (6 * minute) (by decide) (by decide)).2
      "adidas:" [2] (6 * minute) (by decide)).2.2.2.2 (7 * minute) (by decide)).1,
    (((searchCache_expiry_keeps_map (searchCacheStore searchCacheInit "nike:sneakers" [1] 0)
        "nike:sneakers" [1] (6 * minute) (by decide) (by decide)).2
      "adidas:" [2] (6 * minute) (by decide)).2.2.2.2 (7 * minute) (by decide)).2⟩

/-- C5, at the failing input: the pairs (`nike:air`, `sneakers`) and (`nike`,
`air:sneakers`) differ and have the same cache key. On a fresh cache the first
is answered with one result; asked after the second, it is answered from the
cache with the response stored for the second, which holds no result. -/
theorem cacheKey_collision :
    ("nike:air", "sneakers") ≠ ("nike", "air:sneakers")
    ∧ cacheKey "nike:air" "sneakers" = cacheKey "nike" "air:sneakers"
    ∧ (searchHandler exampleEnv searchCacheInit "nike:air" "sneakers" 0 0).response
        = Response.ok [110]
    ∧ (searchHandler exampleEnv searchCacheInit "nike" "air:sneakers" 0 0).response
        = Response.ok []
    ∧ (searchHandler exampleEnv
        (searchHandler exampleEnv searchCacheInit "nike" "air:sneakers" 0 0).state
        "nike:air" "sneakers" second second).searched = false
    ∧ (searchHandler exampleEnv
        (searchHandler exampleEnv searchCacheInit "nike" "air:sneakers" 0 0).state
        "nike:air" "sneakers" second second).response = Response.ok [] := by
  decide

/-! ## Menu cache: claims -/

/-- C6, refuted as stated: nothing is stored and the third row of the sneakers
table has the `id` NaN. The request runs the loader, `json.Marshal` fails on the
sampled record, and the request answers 500 and leaves the slot empty instead
of returning a freshly built payload and storing it. -/
theorem menuCache_marshal_counterexample :
    (menuHandler (exampleMenuLoad nanDB) menuCacheInit 0 0 0).response
        = Response.error "Failed to marshal menu" 500
    ∧ (menuHandler (exampleMenuLoad nanDB) menuCacheInit 0 0 0).state = menuCacheInit
    ∧ (menuHandler (exampleMenuLoad nanDB) menuCacheInit 0 0 0).world = 1
    ∧ (∀ b, (menuHandler (exampleMenuLoad nanDB) menuCacheInit 0 0 0).response
        ≠ Response.ok b) := by
  refine ⟨by decide, by decide, by decide, ?_⟩
  intro b h
  have h2 : (menuHandler (exampleMenuLoad nanDB) menuCacheInit 0 0 0).response
      = Response.error "Failed to marshal menu" 500 := by decide
  rw [h2] at h
  cases h

/-- C6, amended. The bound is 10 minutes, 600000000000 ns. A menu request whose
clock reading is less than 10 minutes after the instant stamped on a stored
payload returns exactly the stored bytes, leaves the slot as it is and does not
run the loader: the world is untouched, and the outcome is the same whatever
the loader is. A request made when nothing is stored, or 10 minutes or more
after the stamp, runs the loader, once: the world is the one the loader leaves.
When the loader yields a payload, the payload is returned and replaces the
slot, stamped with the clock read at the write, and is then served unchanged to
every request made less than 10 minutes after that write; when marshalling
fails, the answer is a 500 and the slot is left as it was. -/
theorem menuCache_ttl {σ : Type} (load : σ → Option Bytes × σ) (st : MenuCacheState)
    (now storeNow : Time) (w : σ) :
    (∀ b, st.menuCache = some b → now - st.menuCacheTime < 600000000000 →
        (menuHandler load st now storeNow w).response = Response.ok b
        ∧ (menuHandler load st now storeNow w).state = st
        ∧ (menuHandler load st now storeNow w).world = w
        ∧ ∀ {τ : Type} (load2 : τ → Option Bytes × τ) (w2 : τ),
            (menuHandler load2 st now storeNow w2).response = Response.ok b
            ∧ (menuHandler load2 st now storeNow w2).state = st
            ∧ (menuHandler load2 st now storeNow w2).world = w2)
    ∧ ((st.menuCache = none ∨ 600000000000 ≤ now - st.menuCacheTime) →
        (menuHandler load st now storeNow w).world = (load w).2
        ∧ (∀ b, (load w).1 = some b →
            (menuHandler load st now storeNow w).response = Response.ok b
            ∧ (menuHandler load st now storeNow w).state
                = { menuCache := some b, menuCacheTime := storeNow }
            ∧ ∀ {τ : Type} (load2 : τ → Option Bytes × τ) (T T2 : Time) (w2 : τ),
                T - storeNow < 600000000000 →
                (menuHandler load2 (menuHandler load st now storeNow w).state T T2 w2).response
                    = Response.ok b
                ∧ (menuHandler load2 (menuHandler load st now storeNow w).state T T2 w2).state
                    = { menuCache := some b, menuCacheTime := storeNow }
                ∧ (menuHandler load2 (menuHandler load st now storeNow w).state T T2 w2).world
                    = w2)
        ∧ ((load w).1 = none →
            (menuHandler load st now storeNow w).response
                = Response.error "Failed to marshal menu" 500
            ∧ (menuHandler load st now storeNow w).state = st)) := by
  have httl : menuCacheTTL = 600000000000 := by decide
  have hit : ∀ {τ : Type} (load2 : τ → Option Bytes × τ) (s : MenuCacheState)
      (T T2 : Time) (w2 : τ) (b : Bytes), s.menuCache = some b →
      T - s.menuCacheTime < 600000000000 →
      (menuHandler load2 s T T2 w2).response = Response.ok b
      ∧ (menuHandler load2 s T T2 w2).state = s
      ∧ (menuHandler load2 s T T2 w2).world = w2 := by
    intro τ load2 s T T2 w2 b hb hlt
    unfold menuHandler
    rw [httl, if_pos hlt, hb]
    exact ⟨rfl, rfl, rfl⟩
  refine ⟨?_, ?_⟩
  · intro b hb hlt
    obtain ⟨h1, h2, h3⟩ := hit load st now storeNow w b hb hlt
    exact ⟨h1, h2, h3, fun load2 w2 => hit load2 st now storeNow w2 b hb hlt⟩
  · intro hmiss
    have hnone : (if now - st.menuCacheTime < menuCacheTTL then st.menuCache else none)
        = none := by
      rw [httl]
      rcases hmiss with h | h
      · simp [h]
      · simp [not_lt.mpr h]
    have hstep : menuHandler load st now storeNow w
        = (match load w with
          | (none, w1) =>
            { response := Response.error "Failed to marshal menu" 500, state := st,
              world := w1 }
          | (some b, w1) =>
            { response := Response.ok b,
              state := { menuCache := some b, menuCacheTime := storeNow },
              world := w1 }) := by
      unfold menuHandler
      rw [hnone]
    rw [hstep]
    rcases hl : load w with ⟨o, w1⟩
    cases o with
    | none =>
      refine ⟨rfl, ?_, fun _ => ⟨rfl, rfl⟩⟩
      intro b hb
      cases hb
    | some b =>
      refine ⟨rfl, ?_, ?_⟩
      · intro b2 hb2
        have hbb : b = b2 := Option.some.inj hb2
        subst hbb
        refine ⟨rfl, rfl, ?_⟩
        intro τ load2 T T2 w2 hT
        exact hit load2 { menuCache := some b, menuCacheTime := storeNow } T T2 w2 b rfl hT
      · intro h
        cases h

/-- C6 amended, at a concrete input: nothing is stored and a request at 0 runs
the loader and stores the payload; a request 9 minutes 59 seconds later is
served the stored bytes without a run of the loader; a request 10 minutes
after the write runs the loader again. -/
theorem menuCache_ttl_witness :
    (menuHandler (exampleMenuLoad (numberedDB 21)) menuCacheInit 0 0 0).world = 1
    ∧ (menuHandler (exampleMenuLoad (numberedDB 21)) menuCacheInit 0 0 0).state
        = { menuCache := some [112, 112, 112, 112, 112, 112, 112, 112, 112],
            menuCacheTime := 0 }
    ∧ (menuHandler (exampleMenuLoad (numberedDB 3))
        { menuCache := some [112, 112, 112, 112, 112, 112, 112, 112, 112],
          menuCacheTime := 0 }
        (599 * second) (599 * second) 1).response
        = Response.ok [112, 112, 112, 112, 112, 112, 112, 112, 112]
    ∧ (menuHandler (exampleMenuLoad (numberedDB 3))
        { menuCache := some [112, 112, 112, 112, 112, 112, 112, 112, 112],
          menuCacheTime := 0 }
        (599 * second) (599 * second) 1).world = 1
    ∧ (menuHandler (exampleMenuLoad (numberedDB 3))
        { menuCache := some [112, 112, 112, 112, 112, 112, 112, 112, 112],
          menuCacheTime := 0 }
        (600 * second) (600 * second) 1).world = 2
    ∧ (menuHandler (exampleMenuLoad (numberedDB 3))
        { menuCache := some [112, 112, 112, 112, 112, 112, 112, 112, 112],
          menuCacheTime := 0 }
        (600 * second) (600 * second) 1).response = Response.ok [112] :=
  ⟨((menuCache_ttl (exampleMenuLoad (numberedDB 21)) menuCacheInit 0 0 0).2
      (Or.inl rfl)).1,
    (((menuCache_ttl (exampleMenuLoad (numberedDB 21)) menuCacheInit 0 0 0).2
      (Or.inl rfl)).2.1 _ (by decide)).2.1,
    ((menuCache_ttl (exampleMenuLoad (numberedDB 3))
        { menuCache := some [112, 112, 112, 112, 112, 112, 112, 112, 112],
          menuCacheTime := 0 }
        (599 * second) (599 * second) 1).1 _ rfl (by decide)).1,
    ((menuCache_ttl (exampleMenuLoad (numberedDB 3))
        { menuCache := some [112, 112, 112, 112, 112, 112, 112, 112, 112],
          menuCacheTime := 0 }
        (599 * second) (599 * second) 1).1 _ rfl (by decide)).2.2.1,
    ((menuCache_ttl (exampleMenuLoad (numberedDB 3))
        { menuCache := some [112, 112, 112, 112, 112, 112, 112, 112, 112],
          menuCacheTime := 0 }
        (600 * second) (600 * second) 1).2 (Or.inr (by decide))).1,
    (((menuCache_ttl (exampleMenuLoad (numberedDB 3))
        { menuCache := some [112, 112, 112, 112, 112, 112, 112, 112, 112],
          menuCacheTime := 0 }
        (600 * second) (600 * second) 1).2 (Or.inr (by decide))).2.1 _ (by decide)).1⟩

/-! ## Search aggregator: lemmas -/

theorem foldl_append_flatten {α β : Type} (f : α → List β) (l : List α) (init : List β) :
    l.foldl (fun acc x => acc ++ f x) init = init ++ (l.map f).flatten := by
  induction l generalizing init with
  | nil => simp
  | cons x rest ih => simp [List.foldl_cons, ih, List.append_assoc]

theorem searchAllCategoriesWith_eq {α : Type} (search : String → List α) :
    searchAllCategoriesWith search = (categories.map search).flatten.take 50 := by
  unfold searchAllCategoriesWith
  rw [foldl_append_flatten]
  simp only [List.nil_append]
  split
  · rfl
  · rw [List.take_of_length_le]
    omega

theorem take_flatten_prefix {β : Type} (per : List (List β)) (j n : Nat)
    (h : (per.take j).flatten.length ≤ n) :
    (per.take j).flatten <+: per.flatten.take n := by
  have hsplit : per.flatten = (per.take j).flatten ++ (per.drop j).flatten := by
    rw [← List.flatten_append, List.take_append_drop]
  rw [hsplit, List.take_append_eq_append_take, List.take_of_length_le h]
  exact List.prefix_append _ _

/-! ## Search aggregator: claims -/

/-- C7. With an empty category the search returns the first 50 elements (all of
them when there are fewer) of the concatenation of the per-category results in
the order sneakers, apparel, accessories, perfumes, watches; its length is
min(50, total); whenever the output reaches beyond the results of the first `j`
categories, all the results of those `j` categories are in it, as its prefix;
and with per-category counts 10, 10, 10, 10, 30 the output is the 40 results of
the first four categories followed by the first 10 of the last. This holds
whatever the per-category search returns, so in particular for the results of
`searchInCategory`. -/
theorem searchAllCategories_first_fifty {α : Type} (search : String → List α) :
    searchAllCategoriesWith search
      = (search "sneakers" ++ search "apparel" ++ search "accessories"
          ++ search "perfumes" ++ search "watches").take 50
    ∧ (searchAllCategoriesWith search).length
        = min 50 ((search "sneakers").length + (search "apparel").length
            + (search "accessories").length + (search "perfumes").length
            + (search "watches").length)
    ∧ (∀ j, ((categories.map search).take j).flatten.length
          < (searchAllCategoriesWith search).length →
        ((categories.map search).take j).flatten <+: searchAllCategoriesWith search)
    ∧ ((search "sneakers").length = 10 → (search "apparel").length = 10 →
        (search "accessories").length = 10 → (search "perfumes").length = 10 →
        (search "watches").length = 30 →
        searchAllCategoriesWith search
          = search "sneakers" ++ search "apparel" ++ search "accessories"
            ++ search "perfumes" ++ (search "watches").take 10
        ∧ (searchAllCategoriesWith search).length = 50)
    ∧ (∀ (db : DB) (query : String),
        searchAllCategories db query
          = (searchInCategory db "sneakers" query ++ searchInCategory db "apparel" query
              ++ searchInCategory db "accessories" query
              ++ searchInCategory db "perfumes" query
              ++ searchInCategory db "watches" query).take 50) := by
  have key : ∀ {β : Type} (f : String → List β),
      searchAllCategoriesWith f
        = (f "sneakers" ++ f "apparel" ++ f "accessories" ++ f "perfumes"
            ++ f "watches").take 50 := by
    intro β f
    rw [searchAllCategoriesWith_eq]
    simp [categories]
  have heq := searchAllCategoriesWith_eq search
  refine ⟨key search, ?_, ?_, ?_, ?_⟩
  · rw [key search, List.length_take]
    simp only [List.length_append]
  · intro j hj
    rw [heq] at hj ⊢
    apply take_flatten_prefix
    rw [List.length_take] at hj
    omega
  · intro h1 h2 h3 h4 h5
    have hout : searchAllCategoriesWith search
        = search "sneakers" ++ search "apparel" ++ search "accessories"
          ++ search "perfumes" ++ (search "watches").take 10 := by
      rw [key search, List.take_append_eq_append_take, List.take_of_length_le]
      · simp [h1, h2, h3, h4]
      · simp [h1, h2, h3, h4]
    refine ⟨hout, ?_⟩
    rw [hout]
    simp [h1, h2, h3, h4, h5]
  · intro db query
    unfold searchAllCategories
    exact key (fun category => searchInCategory db category query)

/-- C7, at a concrete input: a search whose results can be told apart, with 10
results in each of the first four categories and 30 in `watches`. The output
is the results 0 to 9 of sneakers, apparel, accessories, perfumes and watches,
in that order. -/
theorem searchAllCategories_first_fifty_witness :
    (taggedSearch "sneakers").length = 10
    ∧ (taggedSearch "watches").length = 30
    ∧ searchAllCategoriesWith taggedSearch
        = taggedSearch "sneakers" ++ taggedSearch "apparel" ++ taggedSearch "accessories"
          ++ taggedSearch "perfumes" ++ (taggedSearch "watches").take 10
    ∧ (searchAllCategoriesWith taggedSearch).map Prod.fst
        = List.replicate 10 "sneakers" ++ List.replicate 10 "apparel"
          ++ List.replicate 10 "accessories" ++ List.replicate 10 "perfumes"
          ++ List.replicate 10 "watches"
    ∧ (searchAllCategoriesWith taggedSearch).map Prod.snd
        = List.range 10 ++ List.range 10 ++ List.range 10 ++ List.range 10 ++ List.range 10 :=
  ⟨by decide, by decide,
    ((searchAllCategories_first_fifty taggedSearch).2.2.2.1
      (by decide) (by decide) (by decide) (by decide) (by decide)).1,
    by decide, by decide⟩

/-! ## Row projector: lemmas -/

theorem dropWhile_all {p : Char → Bool} (l m : List Char) (h : ∀ c ∈ l, p c = true) :
    (l ++ m).dropWhile p = m.dropWhile p := by
  induction l with
  | nil => rfl
  | cons c rest ih =>
    have hc : p c = true := h c (by simp)
    rw [List.cons_append, List.dropWhile_cons, if_pos hc]
    exact ih (fun x hx => h x (List.mem_cons_of_mem _ hx))

theorem dropWhile_head {p : Char → Bool} (l : List Char)
    (h : ∀ c, l.head? = some c → p c = false) : l.dropWhile p = l := by
  cases l with
  | nil => rfl
  | cons c rest =>
    have hc : p c = false := h c rfl
    simp [List.dropWhile_cons, hc]

/-- Trimming removes a padding that satisfies `p` around a core whose first and
last characters do not. -/
theorem trimChars_padded {p : Char → Bool} (l e r : List Char)
    (hl : ∀ c ∈ l, p c = true) (hr : ∀ c ∈ r, p c = true)
    (hfirst : ∀ c, e.head? = some c → p c = false)
    (hlast : ∀ c, e.getLast? = some c → p c = false) :
    trimChars p (l ++ e ++ r) = e := by
  unfold trimChars
  rw [List.append_assoc, dropWhile_all l (e ++ r) hl]
  cases e with
  | nil =>
    have h1 : ([] ++ r).dropWhile p = [] := by
      have := dropWhile_all r [] hr
      simpa using this
    rw [h1]
    rfl
  | cons c rest =>
    rw [dropWhile_head ((c :: rest) ++ r) (fun x hx => hfirst x (by simpa using hx))]
    rw [List.reverse_append, dropWhile_all r.reverse (c :: rest).reverse
      (fun x hx => hr x (List.mem_reverse.mp hx))]
    rw [dropWhile_head (c :: rest).reverse
      (fun x hx => hlast x (by rw [← List.head?_reverse]; exact hx))]
    exact List.reverse_reverse _

theorem splitChars_no_sep (sep : Char) (l : List Char) (h : sep ∉ l) :
    splitChars sep l = [l] := by
  induction l with
  | nil => rfl
  | cons c rest ih =>
    have hc : c ≠ sep := fun e => h (by simp [e])
    have hr : sep ∉ rest := fun e => h (List.mem_cons_of_mem _ e)
    simp [splitChars, hc, ih hr]

theorem splitChars_append_sep (sep : Char) (l r : List Char) (h : sep ∉ l) :
    splitChars sep (l ++ sep :: r) = l :: splitChars sep r := by
  induction l with
  | nil => simp [splitChars]
  | cons c rest ih =>
    have hc : c ≠ sep := fun e => h (by simp [e])
    have hr : sep ∉ rest := fun e => h (List.mem_cons_of_mem _ e)
    simp [splitChars, hc, ih hr]

/-- Splitting undoes joining with a separator that no piece contains. -/
theorem splitChars_intercalate (sep : Char) (ls : List (List Char)) (hne : ls ≠ [])
    (h : ∀ l ∈ ls, sep ∉ l) :
    splitChars sep (List.intercalate [sep] ls) = ls := by
  induction ls with
  | nil => exact absurd rfl hne
  | cons l rest ih =>
    cases rest with
    | nil =>
      have : List.intercalate [sep] [l] = l := by simp [List.intercalate]
      rw [this]
      exact splitChars_no_sep sep l (h l (by simp))
    | cons l2 rest2 =>
      have : List.intercalate [sep] (l :: l2 :: rest2)
          = l ++ sep :: List.intercalate [sep] (l2 :: rest2) := by
        simp [List.intercalate]
      rw [this, splitChars_append_sep sep l _ (h l (by simp)),
        ih (by simp) (fun x hx => h x (List.mem_cons_of_mem _ hx))]

theorem mem_intercalate (sep : Char) (ls : List (List Char)) (c : Char)
    (hc : c ∈ List.intercalate [sep] ls) : c = sep ∨ ∃ l ∈ ls, c ∈ l := by
  induction ls with
  | nil => simp [List.intercalate] at hc
  | cons l rest ih =>
    cases rest with
    | nil =>
      have : List.intercalate [sep] [l] = l := by simp [List.intercalate]
      rw [this] at hc
      exact Or.inr ⟨l, by simp, hc⟩
    | cons l2 rest2 =>
      have : List.intercalate [sep] (l :: l2 :: rest2)
          = l ++ sep :: List.intercalate [sep] (l2 :: rest2) := by
        simp [List.intercalate]
      rw [this] at hc
      rcases List.mem_append.mp hc with h1 | h1
      · exact Or.inr ⟨l, by simp, h1⟩
      · rcases List.mem_cons.mp h1 with h2 | h2
        · exact Or.inl h2
        · rcases ih h2 with h3 | ⟨x, hx, hcx⟩
          · exact Or.inl h3
          · exact Or.inr ⟨x, List.mem_cons_of_mem _ hx, hcx⟩

theorem isSpace_not_comma (c : Char) (h : unicode.IsSpace c = true) :
    c ≠ ',' ∧ c ≠ '{' ∧ c ≠ '}' := by
  refine ⟨?_, ?_, ?_⟩ <;> intro e <;> subst e <;> revert h <;> decide

/-- Trimming the braces off a braced text without inner braces leaves the inner
text. -/
theorem trimChars_braces (inner : List Char) (h : ∀ c ∈ inner, c ≠ '{' ∧ c ≠ '}') :
    trimChars (fun c => ("\x7b\x7d" : String).data.contains c) (['{'] ++ inner ++ ['}'])
      = inner := by
  have hp : ∀ c ∈ inner, (fun c => ("\x7b\x7d" : String).data.contains c) c = false := by
    intro c hc
    have := h c hc
    simp [this.1, this.2]
  have := trimChars_padded (p := fun c => ("\x7b\x7d" : String).data.contains c)
    ['{'] inner ['}'] (by decide) (by decide)
    (fun c hc => hp c (List.mem_of_mem_head? hc))
    (fun c hc => hp c (List.mem_of_mem_getLast? hc))
  exact this

theorem arrayText_inner_ne_nil (items : List (List Char × List Char × List Char))
    (hne : items ≠ []) (hsingle : items.map (fun it => it.2.1) ≠ [[]]) :
    List.intercalate [','] (items.map (fun it => it.1 ++ it.2.1 ++ it.2.2)) ≠ [] := by
  cases items with
  | nil => exact absurd rfl hne
  | cons it rest =>
    cases rest with
    | nil =>
      have he : it.2.1 ≠ [] := by
        intro e
        apply hsingle
        simp [e]
      simp [List.intercalate, he]
    | cons it2 rest2 =>
      simp [List.intercalate]

/-! ## Row projector: claims -/

/-- C9. For every non-empty list of elements without comma or brace and without
white space at either end, other than the list of the single empty element,
`parsePgArrayString` applied to the elements joined by commas, each with any
white space around it, inside one pair of braces, returns exactly the elements
in order. The texts `{}` and the empty text yield the empty list, and
`{a, b,c}` yields `a`, `b`, `c`. -/
theorem parsePgArrayString_roundtrip (items : List (List Char × List Char × List Char))
    (hne : items ≠ []) (hsingle : items.map (fun it => it.2.1) ≠ [[]])
    (hok : ∀ it ∈ items, Padding it.1 ∧ PlainElement it.2.1 ∧ Padding it.2.2) :
    parsePgArrayString (arrayText items) = items.map (fun it => String.mk it.2.1)
    ∧ parsePgArrayString "\x7b\x7d" = []
    ∧ parsePgArrayString "" = []
    ∧ parsePgArrayString "\x7ba, b,c\x7d" = ["a", "b", "c"] := by
  refine ⟨?_, by decide, by decide, by decide⟩
  have hpiece : ∀ it ∈ items, ∀ c ∈ it.1 ++ it.2.1 ++ it.2.2,
      c ≠ ',' ∧ c ≠ '{' ∧ c ≠ '}' := by
    intro it hit c hc
    obtain ⟨hl, he, hr⟩ := hok it hit
    rcases List.mem_append.mp hc with h1 | h1
    · rcases List.mem_append.mp h1 with h2 | h2
      · exact isSpace_not_comma c (hl c h2)
      · exact ⟨fun e => he.1 (e ▸ h2), fun e => he.2.1 (e ▸ h2), fun e => he.2.2.1 (e ▸ h2)⟩
    · exact isSpace_not_comma c (hr c h1)
  have hbrace : ∀ c ∈ List.intercalate [','] (items.map (fun it => it.1 ++ it.2.1 ++ it.2.2)),
      c ≠ '{' ∧ c ≠ '}' := by
    intro c hc
    rcases mem_intercalate ',' _ c hc with h1 | ⟨l, hl, hcl⟩
    · subst h1
      decide
    · obtain ⟨it, hit, rfl⟩ := List.mem_map.mp hl
      exact (hpiece it hit c hcl).2
  have hinner := arrayText_inner_ne_nil items hne hsingle
  have htrim : strings.Trim (arrayText items) "\x7b\x7d"
      = String.mk (List.intercalate [','] (items.map (fun it => it.1 ++ it.2.1 ++ it.2.2))) := by
    unfold strings.Trim arrayText
    rw [trimChars_braces _ hbrace]
  have hsplit : splitChars ','
      (List.intercalate [','] (items.map (fun it => it.1 ++ it.2.1 ++ it.2.2)))
      = items.map (fun it => it.1 ++ it.2.1 ++ it.2.2) := by
    apply splitChars_intercalate
    · simpa using hne
    · intro l hl hmem
      obtain ⟨it, hit, rfl⟩ := List.mem_map.mp hl
      exact (hpiece it hit ',' hmem).1 rfl
  unfold parsePgArrayString
  simp only [htrim]
  have hnot : ¬ String.mk (List.intercalate [',']
      (items.map (fun it => it.1 ++ it.2.1 ++ it.2.2))) = "" := by
    intro e
    apply hinner
    have := congrArg String.data e
    simpa using this
  rw [if_neg hnot]
  unfold strings.Split
  simp only [hsplit, List.map_map]
  apply List.map_congr_left
  intro it hit
  obtain ⟨hl, he, hr⟩ := hok it hit
  simp only [Function.comp, strings.TrimSpace]
  rw [trimChars_padded it.1 it.2.1 it.2.2 hl hr he.2.2.2.1 he.2.2.2.2]

/-- C9, at a concrete input: the elements `a`, `b`, `c` with a space before
`b`. -/
theorem parsePgArrayString_roundtrip_witness :
    parsePgArrayString (arrayText [([], ['a'], []), ([' '], ['b'], []), ([], ['c'], [])])
      = ["a", "b", "c"] :=
  (parsePgArrayString_roundtrip [([], ['a'], []), ([' '], ['b'], []), ([], ['c'], [])]
    (by decide) (by decide)
    (by
      intro it hit
      simp only [List.mem_cons, List.mem_singleton, List.not_mem_nil, or_false] at hit
      rcases hit with h | h | h <;> subst h <;>
        exact ⟨by decide, by decide, by decide⟩)).1

theorem getProductsCell_set (prod : GoMap Value) (col : String) (v : Value) :
    ∃ x, getProductsCell prod col v = prod.set col x
      ∧ (col = "images" → x = imagesSpec v) := by
  unfold getProductsCell
  by_cases h : col = "images"
  · rw [if_pos h]
    cases v <;> exact ⟨_, rfl, fun _ => rfl⟩
  · rw [if_neg h]
    cases v <;> exact ⟨_, rfl, fun e => absurd e h⟩

theorem getProductsByIndexesCell_eq (prod : GoMap Value) (col : String) (v : Value) :
    getProductsByIndexesCell prod col v = getProductsCell prod col v := rfl

theorem foldl_images_absent (cvs : List (String × Value)) (init : GoMap Value)
    (h : "images" ∉ cvs.map Prod.fst) :
    (cvs.foldl (fun prod cv => getProductsCell prod cv.1 cv.2) init) "images"
      = init "images" := by
  induction cvs generalizing init with
  | nil => rfl
  | cons cv rest ih =>
    have hcv : cv.1 ≠ "images" := fun e => h (by simp [e])
    have hrest : "images" ∉ rest.map Prod.fst := fun e => h (by simp [e])
    rw [List.foldl_cons, ih _ hrest]
    obtain ⟨x, hx, _⟩ := getProductsCell_set init cv.1 cv.2
    rw [hx, GoMap.set_other _ cv.1 "images" x (fun e => hcv e.symm)]

theorem foldl_images_value (cvs : List (String × Value)) (init : GoMap Value) (v : Value)
    (hnodup : (cvs.map Prod.fst).Nodup) (hmem : ("images", v) ∈ cvs) :
    (cvs.foldl (fun prod cv => getProductsCell prod cv.1 cv.2) init) "images"
      = some (imagesSpec v) := by
  induction cvs generalizing init with
  | nil => simp at hmem
  | cons cv rest ih =>
    rw [List.map_cons, List.nodup_cons] at hnodup
    rw [List.foldl_cons]
    rcases List.mem_cons.mp hmem with h | h
    · subst h
      rw [foldl_images_absent rest _ hnodup.1]
      obtain ⟨x, hx, himg⟩ := getProductsCell_set init "images" v
      rw [hx, GoMap.set_self, himg rfl]
    · exact ih _ hnodup.2 h

theorem nodup_zip_fst (cols : List String) (vals : List Value) (h : cols.Nodup) :
    ((cols.zip vals).map Prod.fst).Nodup := by
  induction cols generalizing vals with
  | nil => simp
  | cons c rest ih =>
    cases vals with
    | nil => simp
    | cons v vs =>
      rw [List.nodup_cons] at h
      rw [List.zip_cons_cons, List.map_cons, List.nodup_cons]
      refine ⟨?_, ih vs h.2⟩
      intro hmem
      obtain ⟨cv, hcv, hfst⟩ := List.mem_map.mp hmem
      apply h.1
      have := (List.of_mem_zip (a := cv.1) (b := cv.2) hcv).1
      rw [hfst] at this
      exact this

/-- C8, at the failing input: the store returns two rows for the search of
`nike` in `sneakers`; `searchInCategory` returns two nil maps, not the
projections of the two rows, whose `id` fields are 1 and 2. -/
theorem searchInCategory_nil_records :
    searchInCategory exampleDB "sneakers" "nike" = [none, none]
    ∧ getProductsRow ["id", "brand", "product_name", "images", "product_link"]
        [Value.int 1, Value.bytes "Nike", Value.bytes "Air",
          Value.bytes "\x7bu1, u2\x7d", Value.bytes "l1"] "id" = some (Value.int 1)
    ∧ getProductsRow ["id", "brand", "product_name", "images", "product_link"]
        [Value.int 1, Value.bytes "Nike", Value.bytes "Air",
          Value.bytes "\x7bu1, u2\x7d", Value.bytes "l1"] "images"
        = some (Value.strList ["u1", "u2"])
    ∧ searchInCategory exampleDB "sneakers" "nike"
        ≠ [some (getProductsRow ["id", "brand", "product_name", "images", "product_link"]
              [Value.int 1, Value.bytes "Nike", Value.bytes "Air",
                Value.bytes "\x7bu1, u2\x7d", Value.bytes "l1"]),
           some (getProductsRow ["id", "brand", "product_name", "images", "product_link"]
              [Value.int 2, Value.bytes "Nike", Value.bytes "Zoom",
                Value.null, Value.bytes "l2"])] := by
  have h : searchInCategory exampleDB "sneakers" "nike" = [none, none] := by
    simp [searchInCategory, exampleDB]
  refine ⟨h, by decide, by decide, ?_⟩
  rw [h]
  intro e
  simp at e

/-! ## Malformed array text: lemmas -/

theorem dropWhile_nil_of_all {p : Char → Bool} (l : List Char)
    (h : ∀ c ∈ l.dropWhile p, p c = true) : l.dropWhile p = [] := by
  induction l with
  | nil => rfl
  | cons c rest ih =>
    by_cases hc : p c = true
    · rw [List.dropWhile_cons, if_pos hc] at h ⊢
      exact ih h
    · rw [List.dropWhile_cons, if_neg hc] at h
      exact absurd (h c (by simp)) hc

theorem trimChars_eq_nil_iff (p : Char → Bool) (l : List Char) :
    trimChars p l = [] ↔ ∀ c ∈ l, p c = true := by
  unfold trimChars
  rw [List.reverse_eq_nil_iff, List.dropWhile_eq_nil_iff]
  constructor
  · intro h
    have h1 : l.dropWhile p = [] :=
      dropWhile_nil_of_all l (fun c hc => h c (List.mem_reverse.mpr hc))
    exact List.dropWhile_eq_nil_iff.mp h1
  · intro h c hc
    have h1 : l.dropWhile p = [] := List.dropWhile_eq_nil_iff.mpr h
    rw [h1] at hc
    simp at hc

theorem splitChars_ne_nil (sep : Char) (l : List Char) : splitChars sep l ≠ [] := by
  induction l with
  | nil => simp [splitChars]
  | cons c rest ih =>
    unfold splitChars
    split
    · simp
    · split
      · simp
      · simp

/-- The parse is empty exactly for the texts made of brace characters only. -/
theorem parsePgArrayString_eq_nil_iff (s : String) :
    parsePgArrayString s = [] ↔ ∀ c ∈ s.data, c = '{' ∨ c = '}' := by
  have hcut : ∀ c : Char, (("\x7b\x7d" : String).data.contains c = true)
      ↔ (c = '{' ∨ c = '}') := by
    intro c
    simp
  have htrim : strings.Trim s "\x7b\x7d" = ""
      ↔ ∀ c ∈ s.data, c = '{' ∨ c = '}' := by
    unfold strings.Trim
    have h1 : String.mk (trimChars (fun c => ("\x7b\x7d" : String).data.contains c) s.data)
        = "" ↔ trimChars (fun c => ("\x7b\x7d" : String).data.contains c) s.data = [] := by
      constructor
      · intro e
        have := congrArg String.data e
        simpa using this
      · intro e
        rw [e]
    rw [h1, trimChars_eq_nil_iff]
    constructor
    · intro h c hc
      exact (hcut c).mp (h c hc)
    · intro h c hc
      exact (hcut c).mpr (h c hc)
  unfold parsePgArrayString
  simp only []
  by_cases h : strings.Trim s "\x7b\x7d" = ""
  · rw [if_pos h]
    simp only [true_iff]
    exact htrim.mp h
  · rw [if_neg h]
    constructor
    · intro e
      exfalso
      unfold strings.Split at e
      rw [List.map_eq_nil_iff, List.map_eq_nil_iff] at e
      exact splitChars_ne_nil _ _ e
    · intro hall
      exact absurd (htrim.mpr hall) h

theorem rows_foldl_eq (f : List Value → GoMap Value)
    (rows : List (Option (List Value))) (acc : List Record) :
    rows.foldl
        (fun products row =>
          match row with
          | some vals => products ++ [some (f vals)]
          | none => products)
        acc
      = acc ++ rows.filterMap (fun row => row.map (fun vals => some (f vals))) := by
  induction rows generalizing acc with
  | nil => simp
  | cons row rest ih =>
    rw [List.foldl_cons, ih]
    cases row with
    | none => simp
    | some vals => simp

/-! ## Malformed array text: claims -/

/-- C11, refuted as stated: the images text `a,b` has neither brace, and the
projected images field is the list `a`, `b`, not the empty list; so it is for
`{a,b`, which lacks the closing brace. -/
theorem images_malformed_counterexample :
    ('{' ∉ ("a,b" : String).data ∧ '}' ∉ ("a,b" : String).data)
    ∧ getProductsRow ["id", "images"] [Value.int 1, Value.str "a,b"] "images"
        = some (Value.strList ["a", "b"])
    ∧ getProductsRow ["id", "images"] [Value.int 1, Value.str "a,b"] "images"
        ≠ some (Value.strList [])
    ∧ parsePgArrayString "\x7ba,b" = ["a", "b"] := by
  decide

/-- C11, amended. For every images text, with or without its braces, the row is
still included in the result and its images field is the parse of the text: the
text without its leading and trailing brace characters, split on commas, each
piece trimmed. The field is the empty list exactly when the text is made of
brace characters only. -/
theorem images_malformed_text (s : String) :
    (parsePgArrayString s = [] ↔ ∀ c ∈ s.data, c = '{' ∨ c = '}')
    ∧ parsePgArrayString s
        = (if strings.Trim s "\x7b\x7d" = "" then []
           else (strings.Split (strings.Trim s "\x7b\x7d") ',').map strings.TrimSpace)
    ∧ (∀ cols vals, cols.Nodup → ("images", Value.str s) ∈ cols.zip vals →
        getProductsRow cols vals "images" = some (Value.strList (parsePgArrayString s)))
    ∧ (∀ cols vals, cols.Nodup → ("images", Value.bytes s) ∈ cols.zip vals →
        getProductsRow cols vals "images" = some (Value.strList (parsePgArrayString s)))
    ∧ (∀ (db : DB) (table fields : String) (limit : Int) (rows : Rows) (vals : List Value),
        db ("SELECT " ++ fields ++ " FROM " ++ table ++ " LIMIT $1") [Value.int limit]
            = some rows →
        some vals ∈ rows.rows →
        some (getProductsRow rows.columns vals) ∈ getProducts db table fields limit) := by
  refine ⟨parsePgArrayString_eq_nil_iff s, rfl, ?_, ?_, ?_⟩
  · intro cols vals hnodup hmem
    unfold getProductsRow
    exact foldl_images_value _ _ (Value.str s) (nodup_zip_fst cols vals hnodup) hmem
  · intro cols vals hnodup hmem
    unfold getProductsRow
    exact foldl_images_value _ _ (Value.bytes s) (nodup_zip_fst cols vals hnodup) hmem
  · intro db table fields limit rows vals hdb hmem
    unfold getProducts
    simp only [hdb]
    rw [rows_foldl_eq (getProductsRow rows.columns)]
    simp only [List.nil_append, List.mem_filterMap]
    exact ⟨some vals, hmem, rfl⟩

/-- C11 amended, at a concrete input: a row whose images text is `a,b`. -/
theorem images_malformed_text_witness :
    (["id", "images"] : List String).Nodup
    ∧ getProductsRow ["id", "images"] [Value.int 1, Value.str "a,b"] "images"
        = some (Value.strList (parsePgArrayString "a,b"))
    ∧ ¬ (∀ c ∈ ("a,b" : String).data, c = '{' ∨ c = '}')
    ∧ parsePgArrayString "a,b" ≠ [] :=
  ⟨by decide,
    (images_malformed_text "a,b").2.2.1 ["id", "images"] [Value.int 1, Value.str "a,b"]
      (by decide) (by decide),
    by decide,
    fun h => absurd ((images_malformed_text "a,b").1.mp h) (by decide)⟩

/-! ## Menu product samples: lemmas -/

theorem indexes_foldl_eq (all : List Record) (indexes : List Int) (acc : List Record) :
    indexes.foldl
        (fun fixed (idx : Int) =>
          if idx ≥ 0 ∧ idx < (all.length : Int) then fixed ++ [all.getD idx.toNat none]
          else fixed)
        acc
      = acc ++ selectPositions all indexes := by
  induction indexes generalizing acc with
  | nil => simp [selectPositions]
  | cons idx rest ih =>
    rw [List.foldl_cons, ih]
    by_cases h : idx ≥ 0 ∧ idx < (all.length : Int)
    · have h2 : 0 ≤ idx ∧ idx < (all.length : Int) := h
      simp [selectPositions, h, h2, List.filter_cons]
    · have h2 : ¬ (0 ≤ idx ∧ idx < (all.length : Int)) := h
      simp only [if_neg h]
      simp [selectPositions, h2, List.filter_cons]

theorem getProductsByIndexes_eq (db : DB) (table fields : String) (indexes : List Int) :
    getProductsByIndexes db table fields indexes
      = selectPositions (allProducts db table fields) indexes := by
  unfold getProductsByIndexes allProducts
  simp only []
  cases db ("SELECT " ++ fields ++ " FROM " ++ table) [] with
  | none =>
    simp only [selectPositions, List.length_nil]
    have : indexes.filter (fun idx => decide (0 ≤ idx ∧ idx < ((0 : Nat) : Int))) = [] := by
      rw [List.filter_eq_nil_iff]
      intro idx _
      simp only [decide_eq_true_eq, not_and, not_lt]
      intro h
      exact_mod_cast h
    rw [this]
    rfl
  | some rows =>
    simp only []
    rw [rows_foldl_eq (getProductsByIndexesRow rows.columns), indexes_foldl_eq]
    simp

theorem selectPositions_sampleOf (all : List Record) (indexes : List Int) :
    SampleOf (selectPositions all indexes) all indexes := by
  refine ⟨rfl, ?_, ?_⟩
  · unfold selectPositions
    rw [List.length_map]
    exact List.length_filter_le _ _
  · intro h
    have hf : indexes.filter (fun idx => decide (0 ≤ idx ∧ idx < (all.length : Int)))
        = indexes := by
      rw [List.filter_eq_self]
      intro idx hidx
      simpa using h idx hidx
    unfold selectPositions
    rw [hf]
    exact ⟨rfl, List.length_map _ _⟩

/-! ## Menu product samples: claims -/

/-- C12, refuted as stated: when the store returns three rows for every table,
the sneakers sample has one record, the row at position 2, instead of nine, and
the apparel sample has two records, the rows at positions 1 and 2, instead of
six; with an empty result the sample is empty. -/
theorem menuProducts_size_counterexample :
    (allProducts (numberedDB 3) "sneakers"
        "id, brand, product_name, images, product_link").length = 3
    ∧ (menuProducts (numberedDB 3)).sneaker.length = 1
    ∧ recordIds (menuProducts (numberedDB 3)).sneaker = [some (Value.int 2)]
    ∧ (menuProducts (numberedDB 3)).apparel.length = 2
    ∧ recordIds (menuProducts (numberedDB 3)).apparel
        = [some (Value.int 1), some (Value.int 2)]
    ∧ (menuProducts (numberedDB 0)).watch.length = 0 := by
  decide

/-- C12, amended. For every store, the product sample of each category is taken
from the projected rows of the current result by that category's literal index
list (2, 4, 6, 8, 10, 13, 15, 16, 20 for sneakers; 1 to 6 for apparel, watches,
perfumes and accessories): it holds, in the order of the list, the projected
row at each listed zero-based position that exists and skips the others, so it
has at most 9 (6) records, and exactly the rows at the listed positions, 9 (6)
records, when every listed position exists. -/
theorem menuProducts_samples (db : DB) :
    SampleOf (menuProducts db).sneaker
        (allProducts db "sneakers" "id, brand, product_name, images, product_link")
        [2, 4, 6, 8, 10, 13, 15, 16, 20]
    ∧ SampleOf (menuProducts db).apparel
        (allProducts db "apparel"
          "id, brand, product_name, images, product_link, gender, subcategory")
        [1, 2, 3, 4, 5, 6]
    ∧ SampleOf (menuProducts db).watch
        (allProducts db "watches" "id, brand, name, images, link, gender")
        [1, 2, 3, 4, 5, 6]
    ∧ SampleOf (menuProducts db).perfume
        (allProducts db "perfumes"
          "id, brand, title, images, url, fragrance_family, subcategory")
        [1, 2, 3, 4, 5, 6]
    ∧ SampleOf (menuProducts db).accessories
        (allProducts db "accessories"
          "id, brand, product_name, images, product_link, gender, subcategory")
        [1, 2, 3, 4, 5, 6] := by
  unfold menuProducts
  simp only [getProductsByIndexes_eq]
  exact ⟨selectPositions_sampleOf _ _, selectPositions_sampleOf _ _,
    selectPositions_sampleOf _ _, selectPositions_sampleOf _ _,
    selectPositions_sampleOf _ _⟩

/-- C12 amended, at a concrete input: with 21 rows every listed position exists
and the sneakers sample is the nine rows at the listed positions. -/
theorem menuProducts_samples_witness :
    (menuProducts (numberedDB 21)).sneaker.length = 9
    ∧ recordIds (menuProducts (numberedDB 21)).sneaker
        = [some (Value.int 2), some (Value.int 4), some (Value.int 6), some (Value.int 8),
           some (Value.int 10), some (Value.int 13), some (Value.int 15),
           some (Value.int 16), some (Value.int 20)] :=
  ⟨((menuProducts_samples (numberedDB 21)).1.2.2 (by decide)).2, by decide⟩

/-! ## Accent normalization: lemmas and claims -/

theorem normalizeAccents_foldl_length (l acc : List Char) :
    (l.foldl
      (fun result r =>
        match r with
        | 'é' | 'è' | 'ê' | 'ë' => result ++ ['e']
        | 'à' | 'â' | 'ä' => result ++ ['a']
        | 'î' | 'ï' => result ++ ['i']
        | 'ô' | 'ö' => result ++ ['o']
        | 'ù' | 'û' | 'ü' => result ++ ['u']
        | 'ç' => result ++ ['c']
        | 'ñ' => result ++ ['n']
        | _ => result ++ [r])
      acc).length = acc.length + l.length := by
  induction l generalizing acc with
  | nil => rfl
  | cons c rest ih =>
    rw [List.foldl_cons, ih]
    split <;>
      simp only [List.length_append, List.length_singleton, List.length_cons,
        List.length_nil] <;> omega

/-- C13, at the failing inputs: the result always has as many characters as the
input and the letters of the `switch` lose their accent, but the accented
letters the `switch` does not list are written unchanged: the lower-case `á`,
`í`, `ó`, `ú`, `ã`, `å`, `ý` and every upper-case letter such as `É`. -/
theorem normalizeAccents_misses_letters :
    (∀ s, (normalizeAccents s).length = s.length)
    ∧ normalizeAccents "éèêëàâäîïôöùûüçñ" = "eeeeaaaiioouuucn"
    ∧ normalizeAccents "á" = "á"
    ∧ normalizeAccents "íóúãåý" = "íóúãåý"
    ∧ normalizeAccents "É" = "É"
    ∧ normalizeAccents "Estée Lauder, Adolfo Domínguez" = "Estee Lauder, Adolfo Domínguez" := by
  refine ⟨?_, by decide, by decide, by decide, by decide, by decide⟩
  intro s
  unfold normalizeAccents
  simp only [String.length]
  rw [normalizeAccents_foldl_length]
  simp

end Plutus
